import Mathlib

/-!
Verification of the GEDCOM-viewer core: a shallow embedding of the
relationship-graph builder (`src/services/relationshipGraphBuilder.ts`)
and of the GEDCOM field parsers (`GedcomParser.parseName`,
`GedcomParser.normalizeSex`, `GedcomParser.parseDate`,
`GedcomParser.monthToNumber`), together with proofs of the behavioural
properties stated in the specification.

Conventions of the embedding:
* JavaScript `Map<string, T>` is modelled as an insertion-ordered
  association list with unique keys (`JsMap`); `set` on an existing key
  overwrites in place, otherwise appends.
* `undefined` / missing optional values are modelled with `Option`.
* JavaScript string truthiness (`if (x)`) on an `Option String` is
  "present and non-empty".
* Thrown errors (the non-null assertion `!` in `build`) are modelled by
  returning `none` from an `Option`-valued function.
-/

namespace GedcomViewer

/-- Model of a JavaScript `Map<string, α>`: insertion-ordered association
list with unique keys. -/
abbrev JsMap (α : Type) := List (String × α)

/-- `Map.get`: the value at the first (unique) occurrence of the key. -/
def mapGet {α : Type} : JsMap α → String → Option α
  | [], _ => none
  | kv :: m, k => if kv.1 = k then some kv.2 else mapGet m k

/-- `Map.has`: whether some entry carries the key. -/
def hasKey {α : Type} : JsMap α → String → Bool
  | [], _ => false
  | kv :: m, k => kv.1 = k || hasKey m k

/-- `Map.set`: overwrite in place when the key is present, else append. -/
def mapSet {α : Type} (m : JsMap α) (k : String) (v : α) : JsMap α :=
  if hasKey m k then
    m.map (fun kv => if kv.1 = k then (k, v) else kv)
  else
    m ++ [(k, v)]

/-- `new Map(entries)` / repeated `set` over a list of key-value pairs. -/
def mkMap {α : Type} (l : List (String × α)) : JsMap α :=
  l.foldl (fun m kv => mapSet m kv.1 kv.2) []

/-- `src/types/family.ts` `Profile.sex`: `'M' | 'F' | 'U' | 'X'`. -/
inductive Sex : Type
  | M | F | U | X
deriving DecidableEq, Repr

/-- `src/types/family.ts` `Profile` (the fields consumed by the graph
builder and produced by the field parsers; the remaining optional fields
— events, images, notes, UI metadata — play no role in any verified
property and are omitted). -/
structure Profile : Type where
  id : String
  firstName : Option String := none
  lastName : Option String := none
  sex : Option Sex := none
  famc : Option String := none
  fams : Option (List String) := none
deriving DecidableEq, Repr

/-- `src/types/family.ts` `Family` (marriage/divorce events and notes are
not consumed by the graph builder and are omitted). -/
structure Family : Type where
  id : String
  husb : Option String := none
  wife : Option String := none
  children : Option (List String) := none
deriving DecidableEq, Repr

/-- `GedcomData`: the normalized family model `{ indis, fams }`. -/
structure GedcomData : Type where
  indis : List Profile
  fams : List Family
deriving DecidableEq, Repr

/-- `src/types/family.ts` `ProfileNode`.  `spouses` holds
`(spouseId, familyId)` pairs, `children` holds `(childId, familyId)`
pairs, `siblings` holds `(siblingId, relationship)` pairs. -/
structure ProfileNode : Type where
  profile : Profile
  parents : Option (List String) := none
  spouses : List (String × String) := []
  children : List (String × String) := []
  siblings : List (String × String) := []
deriving DecidableEq, Repr

/-- `src/types/family.ts` `RelationshipGraph`. -/
structure RelationshipGraph : Type where
  individuals : JsMap ProfileNode
  families : JsMap Family
deriving DecidableEq, Repr

/-- `x || ''` on a `string | undefined` value. -/
def orEmpty (o : Option String) : String := o.getD ""

/-- First pass of `build`: the bare node created for each individual. -/
def initNode (p : Profile) : ProfileNode := { profile := p }

/-- The `if (profile.famc) { ... }` block of `build`'s second pass:
resolve the child-family, set the parent pair (husband/wife filtered to
present, non-empty values) and push one `full` sibling entry per other
child of that family. -/
def addFamcRels (families : JsMap Family) (p : Profile) (node : ProfileNode) :
    ProfileNode :=
  match p.famc with
  | none => node
  | some famcId =>
    -- `if (profile.famc)`: the empty string is falsy in JavaScript
    if famcId = "" then node
    else
      match mapGet families famcId with
      | none => node
      | some family =>
        { node with
          parents := some (([orEmpty family.husb, orEmpty family.wife]).filter
            (fun s => s ≠ "")),
          siblings := node.siblings ++ ((family.children.getD []).filterMap
            (fun sid => if sid ≠ p.id then some (sid, "full") else none)) }

/-- One iteration of the `profile.fams?.forEach(famId => ...)` loop of
`build`'s second pass: resolve the spouse-family, push the spouse entry
(the other side of husb/wife, when present and non-empty) and one child
entry per child of that family. -/
def addFamRel (families : JsMap Family) (p : Profile) (node : ProfileNode)
    (famId : String) : ProfileNode :=
  match mapGet families famId with
  | none => node
  | some family =>
    let spouseId := if family.husb = some p.id then family.wife else family.husb
    let node1 :=
      match spouseId with
      | none => node
      | some s =>
        -- `if (spouseId)`: the empty string is falsy
        if s = "" then node
        else { node with spouses := node.spouses ++ [(s, famId)] }
    { node1 with
      children := node1.children ++ ((family.children.getD []).map
        (fun c => (c, famId))) }

/-- The whole second-pass body for one individual: the famc block, then
the fams loop. -/
def relStep (families : JsMap Family) (p : Profile) (node : ProfileNode) :
    ProfileNode :=
  (p.fams.getD []).foldl (addFamRel families p) (addFamcRels families p node)

/-- Second pass of `build` over all individuals.  `none` models the
`TypeError` that the non-null assertion `individuals.get(profile.id)!`
would allow if the key were absent. -/
def pass2 (families : JsMap Family) : List Profile → JsMap ProfileNode →
    Option (JsMap ProfileNode)
  | [], m => some m
  | p :: ps, m =>
    match mapGet m p.id with
    | none => none
    | some node => pass2 families ps (mapSet m p.id (relStep families p node))

/-- `RelationshipGraphBuilder.build`. -/
def build (d : GedcomData) : Option RelationshipGraph :=
  let families := mkMap (d.fams.map (fun f => (f.id, f)))
  let individuals := mkMap (d.indis.map (fun p => (p.id, initNode p)))
  (pass2 families d.indis individuals).map
    (fun m => { individuals := m, families := families })

/-- The mutable closure state of `getAncestors`: the `result` array and
the `visited` set (only membership is ever queried on the set, so a list
suffices). -/
structure TravState : Type where
  result : List Profile
  visited : List String
deriving DecidableEq, Repr

mutual

/-- `traverse(id, depth)` inside `getAncestors`, with the depth bound
re-expressed as remaining fuel: a call at `depth` runs with fuel
`generations + 1 - depth`, so `fuel = 0` is exactly the
`depth > generations` cut-off (in which case nothing is visited). -/
def ancGo (g : RelationshipGraph) : Nat → String → TravState → TravState
  | 0, _, st => st
  | fuel + 1, id, st =>
    if st.visited.contains id then st
    else
      let st1 : TravState := ⟨st.result, id :: st.visited⟩
      match mapGet g.individuals id with
      | none => st1
      | some node =>
        ancList g fuel (node.parents.getD [])
          ⟨st1.result ++ [node.profile], st1.visited⟩
termination_by fuel _ _ => (fuel, 0)

/-- The `node.parents?.forEach(parentId => if (parentId) ...)` loop of
`getAncestors`; the `pid = ""` test is the JavaScript truthiness guard
`if (parentId)`. -/
def ancList (g : RelationshipGraph) : Nat → List String → TravState → TravState
  | _, [], st => st
  | fuel, pid :: rest, st =>
    ancList g fuel rest (if pid = "" then st else ancGo g fuel pid st)
termination_by fuel ids _ => (fuel, ids.length + 1)

end

/-- `RelationshipGraphBuilder.getAncestors`. -/
def getAncestors (profileId : String) (g : RelationshipGraph)
    (generations : Nat) : List Profile :=
  (ancGo g (generations + 1) profileId ⟨[], []⟩).result

/-- The record returned by `getImmediateFamily`. -/
structure ImmediateFamily : Type where
  parents : List Profile
  spouses : List Profile
  children : List Profile
  siblings : List Profile
deriving DecidableEq, Repr

/-- `RelationshipGraphBuilder.getImmediateFamily`: one-hop resolution;
ids that do not resolve in the individuals map are dropped by the
`.filter(Boolean)` steps. -/
def getImmediateFamily (profileId : String) (g : RelationshipGraph) :
    ImmediateFamily :=
  match mapGet g.individuals profileId with
  | none => ⟨[], [], [], []⟩
  | some node =>
    { parents := (node.parents.getD []).filterMap
        (fun i => (mapGet g.individuals i).map (fun n => n.profile)),
      spouses := node.spouses.filterMap
        (fun e => (mapGet g.individuals e.1).map (fun n => n.profile)),
      children := node.children.filterMap
        (fun e => (mapGet g.individuals e.1).map (fun n => n.profile)),
      siblings := node.siblings.filterMap
        (fun e => (mapGet g.individuals e.1).map (fun n => n.profile)) }

/-! ### GEDCOM field parsers (`GedcomParser`) -/

/-- `String.prototype.trim()` (drops whitespace at both ends). -/
def trimChars (l : List Char) : List Char :=
  ((l.dropWhile Char.isWhitespace).reverse.dropWhile Char.isWhitespace).reverse

/-- `s.trim()` on a string. -/
def jsTrim (s : String) : String := ⟨trimChars s.data⟩

/-- `s.toUpperCase()` on ASCII input (the only inputs in scope). -/
def jsToUpper (s : String) : String := ⟨s.data.map Char.toUpper⟩

/-- `s.split(sep)` for a one-character separator, JavaScript semantics:
`""` yields `[""]`, adjacent separators yield empty fields. -/
def splitOnChar (sep : Char) : List Char → List (List Char)
  | [] => [[]]
  | c :: cs =>
    let r := splitOnChar sep cs
    if c = sep then [] :: r
    else
      match r with
      | t :: ts => (c :: t) :: ts
      | [] => [[c]]

/-- `s.split(' ')`. -/
def splitSpace (s : String) : List String :=
  (splitOnChar ' ' s.data).map (fun l => String.mk l)

/-- `x || undefined`: the empty string is falsy. -/
def strOrNone (s : String) : Option String := if s = "" then none else some s

/-- Split a character list at its first `'/'`: the characters before it,
and (when a `'/'` exists) the characters after it. -/
def breakSlash : List Char → List Char × Option (List Char)
  | [] => ([], none)
  | c :: cs =>
    if c = '/' then ([], some cs)
    else
      let r := breakSlash cs
      (c :: r.1, r.2)

/-- Matching of the `parseName` regex `^([^/]*)\s*\/([^/]+)\//` against a
string, returning the two capture groups.

The regex matches iff the string has the shape
`pre ++ "/" ++ mid ++ "/" ++ rest` with no `'/'` in `pre` and `mid` a
non-empty run of non-`'/'` characters: since neither `[^/]*` nor `\s*`
can consume a `'/'`, the literal `\/` necessarily matches the first
`'/'` of the string (backtracking cannot move it), and the greedy
`[^/]+` then has to consume exactly the characters up to the next `'/'`,
whose presence the final `\/` requires.  Group 1 is everything before
the first `'/'` (whether the greedy `[^/]*` or the following `\s*`
consumed its trailing spaces does not change the concatenation that is
trimmed right after), group 2 is the run between the two slashes. -/
def nameMatch (l : List Char) : Option (List Char × List Char) :=
  match breakSlash l with
  | (_, none) => none
  | (pre, some rest) =>
    match breakSlash rest with
    | (_, none) => none
    | (mid, some _) => if mid = [] then none else some (pre, mid)

/-- `GedcomParser.parseName`: `(firstName, lastName)`. -/
def parseName (nameString : String) : Option String × Option String :=
  match nameMatch nameString.data with
  | some pm => (strOrNone (jsTrim ⟨pm.1⟩), strOrNone (jsTrim ⟨pm.2⟩))
  | none => (some nameString, none)

/-- `GedcomParser.normalizeSex` (input `undefined` or a string; the
empty string is falsy, so `if (!sex)` maps it to `undefined` too). -/
def normalizeSex (sex : Option String) : Option Sex :=
  match sex with
  | none => none
  | some s0 =>
    if s0 = "" then none
    else
      let s := jsToUpper s0
      if s = "M" ∨ s = "MALE" then some Sex.M
      else if s = "F" ∨ s = "FEMALE" then some Sex.F
      else if s = "X" ∨ s = "OTHER" then some Sex.X
      else some Sex.U

/-- A JavaScript number that may be `NaN` (`none` models `NaN`). -/
abbrev JsNum := Option Int

/-- Value of a list of decimal digits. -/
def digitsVal (l : List Char) : Nat :=
  l.foldl (fun a c => a * 10 + (c.toNat - '0'.toNat)) 0

/-- JavaScript `parseInt` with no radix argument on decimal input: skip
leading whitespace, read an optional sign and then the longest leading
run of decimal digits; `NaN` when that run is empty.  (The `"0x"`
radix-16 auto-detection of `parseInt` is not modelled; no date field in
scope starts with it.) -/
def jsParseInt (s : String) : JsNum :=
  let l := s.data.dropWhile Char.isWhitespace
  let sl : Int × List Char :=
    match l with
    | '-' :: rest => (-1, rest)
    | '+' :: rest => (1, rest)
    | _ => (1, l)
  let ds := sl.2.takeWhile Char.isDigit
  if ds = [] then none else some (sl.1 * digitsVal ds)

/-- `GedcomParser.monthToNumber`: lookup of the upper-cased token in the
twelve-entry month table, `|| 0` when absent. -/
def monthToNumber (month : String) : Nat :=
  let m := jsToUpper month
  if m = "JAN" then 1 else if m = "FEB" then 2 else if m = "MAR" then 3
  else if m = "APR" then 4 else if m = "MAY" then 5 else if m = "JUN" then 6
  else if m = "JUL" then 7 else if m = "AUG" then 8 else if m = "SEP" then 9
  else if m = "OCT" then 10 else if m = "NOV" then 11 else if m = "DEC" then 12
  else 0

/-- The date object built by `GedcomParser.parseDate`: `day`/`year` are
unassigned (`none`) or hold a `parseInt` result (possibly `NaN`);
`month` is unassigned or holds the `monthToNumber` result; `text` always
holds the original input. -/
structure DateInfo : Type where
  day : Option JsNum := none
  month : Option Nat := none
  year : Option JsNum := none
  text : String
deriving DecidableEq, Repr

/-- `/^\d{4}$/.test s`. -/
def isFourDigits (s : String) : Bool :=
  s.length = 4 && s.data.all Char.isDigit

/-- `GedcomParser.parseDate`: `undefined` on the empty string; otherwise
trim, split on the space character, and fill the structured fields from
the first three tokens when there are at least three, or from the single
token when it is exactly four digits. -/
def parseDate (dateStr : String) : Option DateInfo :=
  if dateStr = "" then none
  else
    let parts := splitSpace (jsTrim dateStr)
    if 3 ≤ parts.length then
      some { day := some (jsParseInt (parts.getD 0 "")),
             month := some (monthToNumber (parts.getD 1 "")),
             year := some (jsParseInt (parts.getD 2 "")),
             text := dateStr }
    else if parts.length = 1 ∧ isFourDigits (parts.getD 0 "") then
      some { year := some (jsParseInt (parts.getD 0 "")), text := dateStr }
    else
      some { text := dateStr }

/-! ### Record-tree parser

Modelled from the spec: the record-tree parsing stage is not part of
this repository's sources — `GedcomParser.parse` delegates the raw-text
stage to the external `gedcom` npm library — so the `RecordTreeParser`
below follows the specification's contract (§4.1/§6): each line carries
a numeric nesting level, a tag and an optional payload; blank or
untokenizable lines are skipped; nesting is resolved with an explicit
stack of in-progress nodes (one fold step per line, no recursion in the
nesting depth), so arbitrary depth is supported. -/

/-- A node of the record tree: tag, optional payload, ordered children. -/
inductive RNode : Type where
  | node (tag : String) (payload : Option String) (children : List RNode)

/-- Depth of a record tree node (a leaf has depth 1). -/
def RNode.depth : RNode → Nat
  | .node _ _ [] => 1
  | .node t p (c :: cs) => max (1 + c.depth) (RNode.depth (.node t p cs))

/-- An in-progress node on the explicit stack: its level, tag, payload
and the children collected so far (in reverse). -/
structure PartialNode : Type where
  level : Nat
  tag : String
  payload : Option String
  childrenRev : List RNode

/-- Close an in-progress node into a tree node. -/
def closePartial (pn : PartialNode) : RNode :=
  .node pn.tag pn.payload pn.childrenRev.reverse

/-- Pop every open node whose level is at least `lvl`, attaching each
closed node as a child of the node below it (or as a finished root). -/
def popTo (lvl : Nat) : List PartialNode → List RNode →
    List PartialNode × List RNode
  | [], roots => ([], roots)
  | top :: rest, roots =>
    if lvl ≤ top.level then
      match rest with
      | parent :: rest' =>
        popTo lvl
          ({ parent with childrenRev := closePartial top :: parent.childrenRev }
            :: rest') roots
      | [] => popTo lvl [] (roots ++ [closePartial top])
    else (top :: rest, roots)
termination_by stack _ => stack.length

/-- One fold step of the tree assembler: close everything at the new
line's level or deeper, then push the new in-progress node. -/
def treeStep (st : List PartialNode × List RNode)
    (ln : Nat × String × Option String) :
    List PartialNode × List RNode :=
  let pr := popTo ln.1 st.1 st.2
  ({ level := ln.1, tag := ln.2.1, payload := ln.2.2, childrenRev := [] }
    :: pr.1, pr.2)

/-- Close all nodes remaining on the stack at end of input. -/
def finishStack : List PartialNode → List RNode → List RNode
  | [], roots => roots
  | top :: rest, roots =>
    match rest with
    | parent :: rest' =>
      finishStack
        ({ parent with childrenRev := closePartial top :: parent.childrenRev }
          :: rest') roots
    | [] => roots ++ [closePartial top]
termination_by stack _ => stack.length

/-- Assemble the record tree from tokenized lines: a single left fold
over the lines with the explicit stack as state. -/
def assembleTree (lines : List (Nat × String × Option String)) :
    List RNode :=
  let st := lines.foldl treeStep ([], [])
  finishStack st.1 st.2

/-- Tokenize one raw line into (level, tag, payload); `none` for blank
lines or lines whose first token is not a number (both are skipped). -/
def tokenizeLine (line : String) : Option (Nat × String × Option String) :=
  let toks := (splitSpace line).filter (fun t => t ≠ "")
  match toks with
  | [] => none
  | lvl :: rest =>
    if lvl.data ≠ [] ∧ lvl.data.all Char.isDigit then
      match rest with
      | [] => none
      | tag :: payload =>
        some (digitsVal lvl.data, tag,
          if payload = [] then none
          else some (String.intercalate " " payload))
    else none

/-- The whole record-tree parser: split the text into lines, tokenize
(skipping blank/malformed lines) and assemble with the explicit stack. -/
def parseRecordTree (text : String) : List RNode :=
  assembleTree
    (((splitOnChar (Char.ofNat 10) text.data).map
      (fun l => String.mk l)).filterMap tokenizeLine)

/-- The tokenized adversarially-deep input: levels `0, 1, …, n`, one
node per level. -/
def chainLevels (n : Nat) : List (Nat × String × Option String) :=
  (List.range (n + 1)).map (fun i => (i, "T", none))

/-- `chainOn c j`: wrap `c` in `j` single-child nodes. -/
def chainOn (c : RNode) : Nat → RNode
  | 0 => c
  | j + 1 => .node "T" none [chainOn c j]

/-- The expected output for `chainLevels n`: a single-branch tree with
`n + 1` nodes. -/
def chainTree (n : Nat) : RNode :=
  chainOn (.node "T" none []) n

/-- The stack the assembler holds after the chain input: in-progress
nodes at levels `k, k-1, …, 0`, the top carrying children `cs`. -/
def stkC : Nat → List RNode → List PartialNode
  | 0, cs => [⟨0, "T", none, cs⟩]
  | k + 1, cs => ⟨k + 1, "T", none, cs⟩ :: stkC k []

/-! ### Derived maps and invariant predicates -/

/-- The families map built by `build`'s first line. -/
def famsMapOf (d : GedcomData) : JsMap Family :=
  mkMap (d.fams.map (fun f => (f.id, f)))

/-- The individuals map after `build`'s first pass. -/
def indisMap0 (d : GedcomData) : JsMap ProfileNode :=
  mkMap (d.indis.map (fun p => (p.id, initNode p)))

/-- Shape invariant of a node's parent pair as `build` creates it: at
most two entries, none of them the empty string. -/
def ParentsOk (n : ProfileNode) : Prop :=
  ∀ ps, n.parents = some ps → ps.length ≤ 2 ∧ ∀ x ∈ ps, x ≠ ""

/-- Every spouse/child entry of the node carries a family id resolving
in the families map. -/
def EntriesOk (fams : JsMap Family) (n : ProfileNode) : Prop :=
  (∀ e ∈ n.spouses, (mapGet fams e.2).isSome = true) ∧
  (∀ e ∈ n.children, (mapGet fams e.2).isSome = true)

/-- Invariant of one individuals-map entry. -/
def NodeOk (fams : JsMap Family) (k : String) (n : ProfileNode) : Prop :=
  n.profile.id = k ∧ ParentsOk n ∧ EntriesOk fams n

/-- Invariant of the whole individuals map. -/
def MapOk (fams : JsMap Family) (m : JsMap ProfileNode) : Prop :=
  ∀ k n, mapGet m k = some n → NodeOk fams k n

/-- Each node of the individuals map sits at the key equal to its
profile's id (true of every built graph). -/
def KeyConsistent (g : RelationshipGraph) : Prop :=
  ∀ k n, mapGet g.individuals k = some n → n.profile.id = k

/-- Invariant of the traversal state: pushed profile ids are pairwise
distinct and all of them are in the visited set. -/
def StInv (st : TravState) : Prop :=
  (st.result.map (fun p => p.id)).Nodup ∧
  ∀ p ∈ st.result, p.id ∈ st.visited

/-- Every visited id that resolves in the graph has had its profile
pushed (used to analyse the one-generation query). -/
def VisitedCovered (g : RelationshipGraph) (st : TravState) : Prop :=
  ∀ id n, mapGet g.individuals id = some n → id ∈ st.visited →
    n.profile ∈ st.result

/-! ### Concrete models used as witnesses -/

/-- The end-to-end model of the spec's test property: one family `f`
with husband `a`, wife `b` and child `c`, and the three individuals with
the corresponding back-references. -/
def modelOneFamily (a b c f : String) : GedcomData :=
  { indis := [ { id := a, fams := some [f] },
               { id := b, fams := some [f] },
               { id := c, famc := some f } ],
    fams := [ { id := f, husb := some a, wife := some b,
                children := some [c] } ] }

/-- A malformed model whose parent pointers form a cycle: `I1` is listed
as the husband of the very family it is a child of, so `I1` is its own
parent. -/
def modelCycle : GedcomData :=
  { indis := [ { id := "I1", famc := some "F1", fams := some ["F1"] } ],
    fams := [ { id := "F1", husb := some "I1", children := some ["I1"] } ] }

/-- A model whose only individual has a famc pointer that resolves to no
family. -/
def modelDangling : GedcomData :=
  { indis := [ { id := "I1", famc := some "FX", fams := some ["FY"] } ],
    fams := [] }

/-- The graph built from `modelDangling` (it exists; see the totality
theorem). -/
def builtDangling : RelationshipGraph :=
  (build modelDangling).getD { individuals := [], families := [] }

/-- The graph built from `modelCycle`. -/
def builtCycle : RelationshipGraph :=
  (build modelCycle).getD { individuals := [], families := [] }

/-- The graph built from `modelOneFamily` at concrete ids. -/
def builtOneFam : RelationshipGraph :=
  (build (modelOneFamily "I1" "I2" "I3" "F1")).getD
    { individuals := [], families := [] }

/-! ### Lemmas about the `JsMap` model -/

theorem mapGet_nil {α : Type} (k : String) : mapGet ([] : JsMap α) k = none := rfl

theorem mapGet_cons {α : Type} (kv : String × α) (m : JsMap α) (k : String) :
    mapGet (kv :: m) k = if kv.1 = k then some kv.2 else mapGet m k := rfl

theorem mapGet_append {α : Type} (m m' : JsMap α) (k : String) :
    mapGet (m ++ m') k =
      match mapGet m k with
      | some v => some v
      | none => mapGet m' k := by
  induction m with
  | nil => simp [mapGet_nil]
  | cons kv m ih =>
    by_cases h : kv.1 = k <;> simp [mapGet_cons, h, ih]

theorem mapGet_eq_none_of_not_hasKey {α : Type} (m : JsMap α) (k : String)
    (h : hasKey m k = false) : mapGet m k = none := by
  induction m with
  | nil => rfl
  | cons kv m ih =>
    simp only [hasKey, Bool.or_eq_false_iff, decide_eq_false_iff_not] at h
    simp [mapGet_cons, h.1, ih h.2]

theorem mapGet_map_overwrite {α : Type} (m : JsMap α) (k k' : String) (v : α) :
    mapGet (m.map (fun kv => if kv.1 = k then (k, v) else kv)) k' =
      if k' = k then
        (if hasKey m k then some v else none)
      else mapGet m k' := by
  induction m with
  | nil => by_cases h : k' = k <;> simp [mapGet_nil, hasKey, h]
  | cons kv m ih =>
    simp only [List.map_cons, hasKey]
    by_cases hk : kv.1 = k
    · by_cases hk' : k' = k
      · subst hk'
        simp [mapGet_cons, hk]
      · have h1 : ¬ (k = k') := fun h => hk' h.symm
        have h2 : kv.1 ≠ k' := by rw [hk]; exact h1
        simp [mapGet_cons, hk, h1, h2, hk', ih]
    · by_cases hkv : kv.1 = k'
      · have hk' : ¬ (k' = k) := fun h => hk (hkv.trans h)
        simp [mapGet_cons, hk, hkv, hk']
      · simp [mapGet_cons, hk, hkv, ih]

/-- The fundamental lemma of the map model: `get` after `set`. -/
theorem mapGet_mapSet {α : Type} (m : JsMap α) (k k' : String) (v : α) :
    mapGet (mapSet m k v) k' = if k' = k then some v else mapGet m k' := by
  unfold mapSet
  by_cases hk : hasKey m k
  · simp only [hk, if_true, mapGet_map_overwrite]
  · have hk' : hasKey m k = false := by simpa using hk
    simp only [hk', Bool.false_eq_true, if_false, mapGet_append]
    by_cases h : k' = k
    · subst h
      simp [mapGet_eq_none_of_not_hasKey m k' hk', mapGet_cons]
    · cases hm : mapGet m k' <;> simp [hm, mapGet_cons, mapGet_nil, h, Ne.symm h]

theorem mapGet_mapSet_self {α : Type} (m : JsMap α) (k : String) (v : α) :
    mapGet (mapSet m k v) k = some v := by
  simp [mapGet_mapSet]

theorem mapGet_mapSet_ne {α : Type} (m : JsMap α) {k k' : String} (v : α)
    (h : k' ≠ k) : mapGet (mapSet m k v) k' = mapGet m k' := by
  simp [mapGet_mapSet, h]

theorem mapGet_foldlSet_not_mem {α : Type} (l : List (String × α))
    (m0 : JsMap α) (k : String) (h : k ∉ l.map (fun kv => kv.1)) :
    mapGet (l.foldl (fun m kv => mapSet m kv.1 kv.2) m0) k = mapGet m0 k := by
  induction l generalizing m0 with
  | nil => rfl
  | cons kv l ih =>
    simp only [List.map_cons, List.mem_cons, not_or] at h
    simp only [List.foldl_cons]
    rw [ih _ h.2, mapGet_mapSet_ne _ _ h.1]

theorem mapGet_foldlSet_isSome {α : Type} (l : List (String × α))
    (m0 : JsMap α) (k : String) :
    (mapGet (l.foldl (fun m kv => mapSet m kv.1 kv.2) m0) k).isSome ↔
      k ∈ l.map (fun kv => kv.1) ∨ (mapGet m0 k).isSome := by
  induction l generalizing m0 with
  | nil => simp
  | cons kv l ih =>
    simp only [List.foldl_cons, List.map_cons, List.mem_cons, ih,
      mapGet_mapSet]
    by_cases h : k = kv.1
    · simp [h]
    · have h' : ¬ (kv.1 = k) := fun hh => h hh.symm
      simp [h, h']

/-- Key set of `mkMap l`: exactly the keys occurring in `l`. -/
theorem mapGet_mkMap_isSome {α : Type} (l : List (String × α)) (k : String) :
    (mapGet (mkMap l) k).isSome ↔ k ∈ l.map (fun kv => kv.1) := by
  rw [mkMap, mapGet_foldlSet_isSome]
  simp [mapGet_nil]

theorem mapGet_foldlSet_of_nodup {α : Type} {l : List (String × α)}
    {k : String} {v : α} (m0 : JsMap α)
    (h : (l.map (fun kv => kv.1)).Nodup) (hm : (k, v) ∈ l) :
    mapGet (l.foldl (fun m kv => mapSet m kv.1 kv.2) m0) k = some v := by
  induction l generalizing m0 with
  | nil => cases hm
  | cons kv l ih =>
    simp only [List.map_cons, List.nodup_cons] at h
    rcases List.mem_cons.mp hm with heq | htl
    · subst heq
      rw [List.foldl_cons, mapGet_foldlSet_not_mem _ _ _ h.1,
        mapGet_mapSet_self]
    · rw [List.foldl_cons]
      exact ih _ h.2 htl

/-- With pairwise-distinct keys, `mkMap` maps each key to its listed
value. -/
theorem mapGet_mkMap_of_nodup {α : Type} {l : List (String × α)}
    {k : String} {v : α} (h : (l.map (fun kv => kv.1)).Nodup)
    (hm : (k, v) ∈ l) : mapGet (mkMap l) k = some v :=
  mapGet_foldlSet_of_nodup [] h hm

/-! ### Structural lemmas about the graph builder -/

theorem addFamcRels_profile (fams : JsMap Family) (p : Profile)
    (n : ProfileNode) : (addFamcRels fams p n).profile = n.profile := by
  unfold addFamcRels
  cases p.famc with
  | none => rfl
  | some c =>
    by_cases hc : c = ""
    · simp [hc]
    · simp only [hc, if_false]
      cases mapGet fams c <;> rfl

theorem addFamcRels_spouses (fams : JsMap Family) (p : Profile)
    (n : ProfileNode) : (addFamcRels fams p n).spouses = n.spouses := by
  unfold addFamcRels
  cases p.famc with
  | none => rfl
  | some c =>
    by_cases hc : c = ""
    · simp [hc]
    · simp only [hc, if_false]
      cases mapGet fams c <;> rfl

theorem addFamcRels_children (fams : JsMap Family) (p : Profile)
    (n : ProfileNode) : (addFamcRels fams p n).children = n.children := by
  unfold addFamcRels
  cases p.famc with
  | none => rfl
  | some c =>
    by_cases hc : c = ""
    · simp [hc]
    · simp only [hc, if_false]
      cases mapGet fams c <;> rfl

/-- A dangling (or falsy) famc pointer leaves the node untouched. -/
theorem addFamcRels_dangling (fams : JsMap Family) (p : Profile)
    (n : ProfileNode)
    (h : ∀ c, p.famc = some c → c = "" ∨ mapGet fams c = none) :
    addFamcRels fams p n = n := by
  unfold addFamcRels
  cases hp : p.famc with
  | none => rfl
  | some c =>
    rcases h c hp with hc | hc
    · simp [hc]
    · by_cases hc' : c = ""
      · simp [hc']
      · simp [hc', hc]

theorem addFamRel_profile (fams : JsMap Family) (p : Profile)
    (n : ProfileNode) (fid : String) :
    (addFamRel fams p n fid).profile = n.profile := by
  unfold addFamRel
  cases mapGet fams fid with
  | none => rfl
  | some family =>
    dsimp only
    cases (if family.husb = some p.id then family.wife else family.husb) with
    | none => rfl
    | some s =>
      by_cases hs : s = "" <;> simp [hs]

theorem addFamRel_parents (fams : JsMap Family) (p : Profile)
    (n : ProfileNode) (fid : String) :
    (addFamRel fams p n fid).parents = n.parents := by
  unfold addFamRel
  cases mapGet fams fid with
  | none => rfl
  | some family =>
    dsimp only
    cases (if family.husb = some p.id then family.wife else family.husb) with
    | none => rfl
    | some s =>
      by_cases hs : s = "" <;> simp [hs]

theorem addFamRel_siblings (fams : JsMap Family) (p : Profile)
    (n : ProfileNode) (fid : String) :
    (addFamRel fams p n fid).siblings = n.siblings := by
  unfold addFamRel
  cases mapGet fams fid with
  | none => rfl
  | some family =>
    dsimp only
    cases (if family.husb = some p.id then family.wife else family.husb) with
    | none => rfl
    | some s =>
      by_cases hs : s = "" <;> simp [hs]

/-- An unresolved fams entry leaves the node untouched. -/
theorem addFamRel_dangling (fams : JsMap Family) (p : Profile)
    (n : ProfileNode) (fid : String) (h : mapGet fams fid = none) :
    addFamRel fams p n fid = n := by
  unfold addFamRel
  rw [h]

theorem foldl_addFamRel_profile (fams : JsMap Family) (p : Profile)
    (l : List String) (n : ProfileNode) :
    (l.foldl (addFamRel fams p) n).profile = n.profile := by
  induction l generalizing n with
  | nil => rfl
  | cons fid l ih => rw [List.foldl_cons, ih, addFamRel_profile]

theorem foldl_addFamRel_parents (fams : JsMap Family) (p : Profile)
    (l : List String) (n : ProfileNode) :
    (l.foldl (addFamRel fams p) n).parents = n.parents := by
  induction l generalizing n with
  | nil => rfl
  | cons fid l ih => rw [List.foldl_cons, ih, addFamRel_parents]

theorem foldl_addFamRel_siblings (fams : JsMap Family) (p : Profile)
    (l : List String) (n : ProfileNode) :
    (l.foldl (addFamRel fams p) n).siblings = n.siblings := by
  induction l generalizing n with
  | nil => rfl
  | cons fid l ih => rw [List.foldl_cons, ih, addFamRel_siblings]

theorem relStep_profile (fams : JsMap Family) (p : Profile)
    (n : ProfileNode) : (relStep fams p n).profile = n.profile := by
  unfold relStep
  rw [foldl_addFamRel_profile, addFamcRels_profile]

theorem relStep_parents (fams : JsMap Family) (p : Profile)
    (n : ProfileNode) :
    (relStep fams p n).parents = (addFamcRels fams p n).parents := by
  unfold relStep
  rw [foldl_addFamRel_parents]

theorem relStep_siblings (fams : JsMap Family) (p : Profile)
    (n : ProfileNode) :
    (relStep fams p n).siblings = (addFamcRels fams p n).siblings := by
  unfold relStep
  rw [foldl_addFamRel_siblings]

theorem build_def (d : GedcomData) :
    build d = (pass2 (famsMapOf d) d.indis (indisMap0 d)).map
      (fun m => { individuals := m, families := famsMapOf d }) := rfl

theorem parentsOk_initNode (p : Profile) : ParentsOk (initNode p) := by
  intro ps h
  cases h

theorem entriesOk_initNode (fams : JsMap Family) (p : Profile) :
    EntriesOk fams (initNode p) := by
  constructor <;> intro e he <;> cases he

theorem addFamcRels_parentsOk (fams : JsMap Family) (p : Profile)
    (n : ProfileNode) (h : ParentsOk n) :
    ParentsOk (addFamcRels fams p n) := by
  unfold addFamcRels
  cases p.famc with
  | none => exact h
  | some c =>
    by_cases hc : c = ""
    · simpa [hc] using h
    · simp only [hc, if_false]
      cases mapGet fams c with
      | none => exact h
      | some family =>
        intro ps hps
        simp only [Option.some_inj] at hps
        subst hps
        constructor
        · exact List.length_filter_le _ _
        · intro x hx
          have := List.of_mem_filter hx
          simpa using this

theorem addFamcRels_entriesOk (fams : JsMap Family) (p : Profile)
    (n : ProfileNode) (h : EntriesOk fams n) :
    EntriesOk fams (addFamcRels fams p n) := by
  unfold EntriesOk at h ⊢
  rw [addFamcRels_spouses, addFamcRels_children]
  exact h

theorem addFamRel_parentsOk (fams : JsMap Family) (p : Profile)
    (n : ProfileNode) (fid : String) (h : ParentsOk n) :
    ParentsOk (addFamRel fams p n fid) := by
  intro ps hps
  rw [addFamRel_parents] at hps
  exact h ps hps

theorem addFamRel_entriesOk (fams : JsMap Family) (p : Profile)
    (n : ProfileNode) (fid : String) (h : EntriesOk fams n) :
    EntriesOk fams (addFamRel fams p n fid) := by
  unfold addFamRel
  cases hm : mapGet fams fid with
  | none => exact h
  | some family =>
    dsimp only
    have hfid : (mapGet fams fid).isSome = true := by rw [hm]; rfl
    have hch : ∀ e ∈ n.children ++ (family.children.getD []).map
        (fun c => (c, fid)), (mapGet fams e.2).isSome = true := by
      intro e he
      rcases List.mem_append.mp he with h1 | h1
      · exact h.2 e h1
      · rcases List.mem_map.mp h1 with ⟨c, _, rfl⟩
        exact hfid
    cases (if family.husb = some p.id then family.wife else family.husb) with
    | none => exact ⟨h.1, hch⟩
    | some s =>
      by_cases hs : s = ""
      · simp only [hs, if_true]
        exact ⟨h.1, hch⟩
      · simp only [hs, if_false]
        refine ⟨?_, hch⟩
        intro e he
        rcases List.mem_append.mp he with h1 | h1
        · exact h.1 e h1
        · rcases List.mem_singleton.mp h1 with rfl
          exact hfid

theorem foldl_addFamRel_parentsOk (fams : JsMap Family) (p : Profile)
    (l : List String) (n : ProfileNode) (h : ParentsOk n) :
    ParentsOk (l.foldl (addFamRel fams p) n) := by
  induction l generalizing n with
  | nil => exact h
  | cons fid l ih =>
    rw [List.foldl_cons]
    exact ih _ (addFamRel_parentsOk _ _ _ _ h)

theorem foldl_addFamRel_entriesOk (fams : JsMap Family) (p : Profile)
    (l : List String) (n : ProfileNode) (h : EntriesOk fams n) :
    EntriesOk fams (l.foldl (addFamRel fams p) n) := by
  induction l generalizing n with
  | nil => exact h
  | cons fid l ih =>
    rw [List.foldl_cons]
    exact ih _ (addFamRel_entriesOk _ _ _ _ h)

theorem relStep_nodeOk (fams : JsMap Family) (p : Profile) (k : String)
    (n : ProfileNode) (h : NodeOk fams k n) :
    NodeOk fams k (relStep fams p n) := by
  refine ⟨?_, ?_, ?_⟩
  · rw [relStep_profile]; exact h.1
  · intro ps hps
    rw [relStep_parents] at hps
    exact addFamcRels_parentsOk fams p n h.2.1 ps hps
  · unfold relStep
    exact foldl_addFamRel_entriesOk _ _ _ _
      (addFamcRels_entriesOk _ _ _ h.2.2)

theorem mapOk_mapSet (fams : JsMap Family) (m : JsMap ProfileNode)
    (k : String) (v : ProfileNode) (hm : MapOk fams m)
    (hv : NodeOk fams k v) : MapOk fams (mapSet m k v) := by
  intro k' n hn
  rw [mapGet_mapSet] at hn
  by_cases h : k' = k
  · subst h
    simp only [if_true] at hn
    cases hn
    exact hv
  · simp only [h, if_false] at hn
    exact hm k' n hn

theorem mapOk_indisMap0 (fams : JsMap Family) (d : GedcomData) :
    MapOk fams (indisMap0 d) := by
  unfold indisMap0 mkMap
  have : ∀ (l : List Profile) (m0 : JsMap ProfileNode), MapOk fams m0 →
      MapOk fams ((l.map (fun p => (p.id, initNode p))).foldl
        (fun m kv => mapSet m kv.1 kv.2) m0) := by
    intro l
    induction l with
    | nil => intro m0 h; exact h
    | cons p l ih =>
      intro m0 h
      rw [List.map_cons, List.foldl_cons]
      exact ih _ (mapOk_mapSet _ _ _ _ h
        ⟨rfl, parentsOk_initNode p, entriesOk_initNode fams p⟩)
  exact this d.indis [] (fun k n hn => by cases hn)

theorem pass2_mapOk (fams : JsMap Family) :
    ∀ (ps : List Profile) (m m' : JsMap ProfileNode), MapOk fams m →
      pass2 fams ps m = some m' → MapOk fams m' := by
  intro ps
  induction ps with
  | nil =>
    intro m m' h hp
    cases hp
    exact h
  | cons p ps ih =>
    intro m m' h hp
    unfold pass2 at hp
    cases hn : mapGet m p.id with
    | none => rw [hn] at hp; cases hp
    | some node =>
      rw [hn] at hp
      exact ih _ _ (mapOk_mapSet _ _ _ _ h
        (relStep_nodeOk fams p p.id node (h _ _ hn))) hp

/-- Every built graph satisfies the node invariants: each node sits at
the key equal to its profile's id, its parent pair has at most two
non-empty entries, and every spouse/child entry's family id resolves. -/
theorem build_mapOk (d : GedcomData) (g : RelationshipGraph)
    (h : build d = some g) : MapOk g.families g.individuals := by
  rw [build_def] at h
  cases hp : pass2 (famsMapOf d) d.indis (indisMap0 d) with
  | none => rw [hp] at h; cases h
  | some m' =>
    rw [hp] at h
    simp only [Option.map_some'] at h
    cases h
    exact pass2_mapOk _ _ _ _ (mapOk_indisMap0 _ d) hp

/-- The second pass succeeds whenever every individual's id is a key of
the map, and it neither adds nor removes keys. -/
theorem pass2_total (fams : JsMap Family) :
    ∀ (ps : List Profile) (m : JsMap ProfileNode),
      (∀ p ∈ ps, (mapGet m p.id).isSome = true) →
      ∃ m', pass2 fams ps m = some m' ∧
        ∀ k, (mapGet m' k).isSome = (mapGet m k).isSome := by
  intro ps
  induction ps with
  | nil =>
    intro m _
    exact ⟨m, rfl, fun k => rfl⟩
  | cons p ps ih =>
    intro m h
    cases hn : mapGet m p.id with
    | none =>
      have := h p (List.mem_cons_self p ps)
      rw [hn] at this
      cases this
    | some node =>
      have hkeys : ∀ q ∈ ps, (mapGet (mapSet m p.id (relStep fams p node))
          q.id).isSome = true := by
        intro q hq
        rw [mapGet_mapSet]
        by_cases hiq : q.id = p.id
        · simp [hiq]
        · simp only [hiq, if_false]
          exact h q (List.mem_cons_of_mem _ hq)
      rcases ih _ hkeys with ⟨m', hm', hk⟩
      refine ⟨m', ?_, ?_⟩
      · unfold pass2
        rw [hn]
        exact hm'
      · intro k
        rw [hk k, mapGet_mapSet]
        by_cases hkp : k = p.id
        · subst hkp
          rw [hn]
          simp
        · simp [hkp]

/-- The second pass does not modify entries whose key is not among the
processed individuals' ids. -/
theorem pass2_not_mem (fams : JsMap Family) :
    ∀ (ps : List Profile) (m m' : JsMap ProfileNode) (k : String),
      pass2 fams ps m = some m' → k ∉ ps.map (fun p => p.id) →
      mapGet m' k = mapGet m k := by
  intro ps
  induction ps with
  | nil =>
    intro m m' k h _
    cases h
    rfl
  | cons p ps ih =>
    intro m m' k h hk
    simp only [List.map_cons, List.mem_cons, not_or] at hk
    unfold pass2 at h
    cases hn : mapGet m p.id with
    | none => rw [hn] at h; cases h
    | some node =>
      rw [hn] at h
      rw [ih _ _ _ h hk.2, mapGet_mapSet_ne _ _ hk.1]

/-- With pairwise-distinct ids, each individual's final node is the
result of one `relStep` applied to its first-pass node. -/
theorem pass2_final_node (fams : JsMap Family) :
    ∀ (ps : List Profile) (m m' : JsMap ProfileNode),
      pass2 fams ps m = some m' →
      (ps.map (fun p => p.id)).Nodup →
      ∀ p ∈ ps, ∀ n, mapGet m p.id = some n →
        mapGet m' p.id = some (relStep fams p n) := by
  intro ps
  induction ps with
  | nil =>
    intro m m' _ _ p hp
    cases hp
  | cons q ps ih =>
    intro m m' h hnodup p hp n hn
    simp only [List.map_cons, List.nodup_cons] at hnodup
    unfold pass2 at h
    cases hq : mapGet m q.id with
    | none => rw [hq] at h; cases h
    | some nodeq =>
      rw [hq] at h
      rcases List.mem_cons.mp hp with rfl | hp'
      · rw [hn] at hq
        cases hq
        rw [pass2_not_mem fams ps _ _ _ h hnodup.1, mapGet_mapSet_self]
      · have hne : p.id ≠ q.id := by
          intro he
          exact hnodup.1 (he ▸ List.mem_map.mpr ⟨p, hp', rfl⟩)
        refine ih _ _ h hnodup.2 p hp' n ?_
        rw [mapGet_mapSet_ne _ _ hne]
        exact hn

/-- `build` is total and the key set of the individuals map is exactly
the set of the model's individual ids. -/
theorem build_total_keys (d : GedcomData) :
    ∃ g, build d = some g ∧
      ∀ k, (mapGet g.individuals k).isSome = true ↔
        k ∈ d.indis.map (fun p => p.id) := by
  have hkeys0 : ∀ k, (mapGet (indisMap0 d) k).isSome = true ↔
      k ∈ d.indis.map (fun p => p.id) := by
    intro k
    unfold indisMap0
    rw [mapGet_mkMap_isSome]
    simp
  have hall : ∀ p ∈ d.indis, (mapGet (indisMap0 d) p.id).isSome = true := by
    intro p hp
    exact (hkeys0 p.id).mpr (List.mem_map.mpr ⟨p, hp, rfl⟩)
  rcases pass2_total (famsMapOf d) d.indis (indisMap0 d) hall with
    ⟨m', hm', hk⟩
  refine ⟨{ individuals := m', families := famsMapOf d }, ?_, ?_⟩
  · rw [build_def, hm']
    rfl
  · intro k
    dsimp only
    rw [hk k]
    exact hkeys0 k

theorem famsMapOf_get_none (d : GedcomData) (x : String)
    (hx : x ∉ d.fams.map (fun f => f.id)) : mapGet (famsMapOf d) x = none := by
  cases h : mapGet (famsMapOf d) x with
  | none => rfl
  | some v =>
    exfalso
    apply hx
    have : (mapGet (famsMapOf d) x).isSome = true := by rw [h]; rfl
    rw [famsMapOf, mapGet_mkMap_isSome] at this
    simpa using this

theorem indisMap0_get_nodup (d : GedcomData)
    (hnodup : (d.indis.map (fun p => p.id)).Nodup) (p : Profile)
    (hp : p ∈ d.indis) : mapGet (indisMap0 d) p.id = some (initNode p) := by
  unfold indisMap0
  apply mapGet_mkMap_of_nodup
  · simpa [List.map_map, Function.comp] using hnodup
  · exact List.mem_map.mpr ⟨p, hp, rfl⟩

/-- With pairwise-distinct ids, the built graph's node for each
individual is one `relStep` applied to that individual's bare node, and
the graph's families map is the one keyed from the model. -/
theorem build_node_nodup (d : GedcomData) (g : RelationshipGraph)
    (h : build d = some g)
    (hnodup : (d.indis.map (fun p => p.id)).Nodup) :
    g.families = famsMapOf d ∧
    ∀ p ∈ d.indis, mapGet g.individuals p.id =
      some (relStep (famsMapOf d) p (initNode p)) := by
  rw [build_def] at h
  cases hp2 : pass2 (famsMapOf d) d.indis (indisMap0 d) with
  | none => rw [hp2] at h; cases h
  | some m' =>
    rw [hp2] at h
    simp only [Option.map_some'] at h
    cases h
    refine ⟨rfl, ?_⟩
    intro p hp
    exact pass2_final_node (famsMapOf d) d.indis _ _ hp2 hnodup p hp
      (initNode p) (indisMap0_get_nodup d hnodup p hp)

/-- Folding the fams loop over only the resolving family ids gives the
same node: unresolved entries are no-ops. -/
theorem foldl_addFamRel_filter (fams : JsMap Family) (p : Profile)
    (l : List String) (n : ProfileNode) :
    l.foldl (addFamRel fams p) n =
      (l.filter (fun fid => (mapGet fams fid).isSome)).foldl
        (addFamRel fams p) n := by
  induction l generalizing n with
  | nil => rfl
  | cons fid l ih =>
    rw [List.foldl_cons]
    cases hm : mapGet fams fid with
    | none =>
      rw [addFamRel_dangling _ _ _ _ hm, ih]
      have : (mapGet fams fid).isSome = false := by rw [hm]; rfl
      simp [List.filter_cons, this]
    | some fam =>
      have : (mapGet fams fid).isSome = true := by rw [hm]; rfl
      simp only [List.filter_cons, this, if_true]
      rw [List.foldl_cons, ih]

/-! ### Claim theorems -/

/-- **C9.** `build()` is total: for every input model (including models
with duplicate ids or dangling pointers) it returns a graph (the
second-pass non-null dereference never fails, i.e. the `Option` result
is never `none`), and the key set of the returned individuals map is
exactly the set of ids of the model's individuals. -/
theorem build_total_key_set (d : GedcomData) :
    ∃ g, build d = some g ∧
      ∀ k, ((mapGet g.individuals k).isSome = true ↔
        k ∈ d.indis.map (fun p => p.id)) :=
  build_total_keys d

/-- Witness for C9 at a concrete model with a dangling famc pointer. -/
theorem build_total_key_set_witness :
    (build modelDangling).isSome = true := by
  rcases build_total_key_set modelDangling with ⟨g, hg, _⟩
  rw [hg]
  rfl

/-- **C10.** For every graph and every start id that is not a key of the
individuals map, `getImmediateFamily` returns four empty lists (and
being a total function, never raises). -/
theorem getImmediateFamily_unknown_id (g : RelationshipGraph) (s : String)
    (h : mapGet g.individuals s = none) :
    getImmediateFamily s g = ⟨[], [], [], []⟩ := by
  unfold getImmediateFamily
  rw [h]

/-- Witness for C10: the empty graph and an arbitrary id. -/
theorem getImmediateFamily_unknown_id_witness :
    mapGet (RelationshipGraph.mk [] []).individuals "X" = none ∧
    getImmediateFamily "X" (RelationshipGraph.mk [] []) = ⟨[], [], [], []⟩ :=
  ⟨rfl, getImmediateFamily_unknown_id (RelationshipGraph.mk [] []) "X" rfl⟩

/-- **C3.** Dangling-pointer tolerance of `build()`: construction never
errors; every spouse entry and every child entry of every node carries a
family id that resolves in the graph's families map (so a fams entry
that resolves to no family contributes no spouse and no child entries —
made explicit by the last conjunct: the node equals the node computed
from only the resolving fams entries); and an individual whose famc does
not resolve gets a node with no parent pair and an empty sibling list. -/
theorem build_dangling_tolerance (d : GedcomData) :
    (build d).isSome = true ∧
    ∀ g, build d = some g →
      ((∀ k n, mapGet g.individuals k = some n →
          (∀ e ∈ n.spouses, (mapGet g.families e.2).isSome = true) ∧
          (∀ e ∈ n.children, (mapGet g.families e.2).isSome = true)) ∧
       ((d.indis.map (fun p => p.id)).Nodup →
         ∀ p ∈ d.indis,
           (∀ x, p.famc = some x → x ∉ d.fams.map (fun f => f.id) →
             ∃ n, mapGet g.individuals p.id = some n ∧
               n.parents = none ∧ n.siblings = []) ∧
           mapGet g.individuals p.id = some
             (((p.fams.getD []).filter
                 (fun fid => (mapGet (famsMapOf d) fid).isSome)).foldl
               (addFamRel (famsMapOf d) p)
               (addFamcRels (famsMapOf d) p (initNode p))))) := by
  refine ⟨?_, ?_⟩
  · rcases build_total_keys d with ⟨g, hg, _⟩
    rw [hg]
    rfl
  · intro g hg
    refine ⟨?_, ?_⟩
    · intro k n hn
      exact (build_mapOk d g hg k n hn).2.2
    · intro hnodup p hp
      rcases build_node_nodup d g hg hnodup with ⟨hfam, hnodes⟩
      have hnode := hnodes p hp
      refine ⟨?_, ?_⟩
      · intro x hx hxmem
        have hd : addFamcRels (famsMapOf d) p (initNode p) = initNode p := by
          apply addFamcRels_dangling
          intro c hc
          rw [hx] at hc
          injection hc with hxc
          exact Or.inr (hxc ▸ famsMapOf_get_none d x hxmem)
        refine ⟨relStep (famsMapOf d) p (initNode p), hnode, ?_, ?_⟩
        · rw [relStep_parents, hd]
          rfl
        · rw [relStep_siblings, hd]
          rfl
      · rw [hnode, relStep, foldl_addFamRel_filter]

/-- Witness for C3 at `modelDangling`: its only individual has both a
dangling famc and a dangling fams entry, and its built node has no
parent pair, no siblings, no spouses and no children. -/
theorem build_dangling_tolerance_witness :
    ∃ n, mapGet builtDangling.individuals "I1" = some n ∧
      n.parents = none ∧ n.siblings = [] := by
  have h := (build_dangling_tolerance modelDangling).2 builtDangling (by rfl)
  exact (h.2 (by decide)
    { id := "I1", famc := some "FX", fams := some ["FY"] } (by decide)).1
    "FX" rfl (by decide)

/-- **C1.** End-to-end: one family `f` with husband-reference `a`,
wife-reference `b` and child-reference `c`, and the three individuals
with the matching back-references, build to a graph where `a` and `b`
are each other's spouse, `c` is a child of both (paired with `f`), and
`c`'s sibling list is empty.  (The three ids are distinct per the
normalized-model invariant, and the spouse ids are non-empty strings.) -/
theorem build_one_family (a b c f : String) (hab : a ≠ b) (hac : a ≠ c)
    (hbc : b ≠ c) (ha : a ≠ "") (hb : b ≠ "") :
    ∃ g, build (modelOneFamily a b c f) = some g ∧
      (∃ na, mapGet g.individuals a = some na ∧
        (b, f) ∈ na.spouses ∧ (c, f) ∈ na.children) ∧
      (∃ nb, mapGet g.individuals b = some nb ∧
        (a, f) ∈ nb.spouses ∧ (c, f) ∈ nb.children) ∧
      (∃ nc, mapGet g.individuals c = some nc ∧ nc.siblings = []) := by
  have hnodup : ((modelOneFamily a b c f).indis.map
      (fun p => p.id)).Nodup := by
    simp [modelOneFamily, hab, hac, hbc]
  rcases build_total_keys (modelOneFamily a b c f) with ⟨g, hg, _⟩
  rcases build_node_nodup _ g hg hnodup with ⟨_, hnodes⟩
  have hfm : famsMapOf (modelOneFamily a b c f) =
      [(f, { id := f, husb := some a, wife := some b,
             children := some [c] })] := rfl
  refine ⟨g, hg, ?_, ?_, ?_⟩
  · have hA := hnodes { id := a, fams := some [f] } (by
      simp [modelOneFamily])
    refine ⟨_, hA, ?_, ?_⟩ <;>
      simp [relStep, addFamcRels, addFamRel, hfm, mapGet, initNode, hb]
  · have hB := hnodes { id := b, fams := some [f] } (by
      simp [modelOneFamily])
    refine ⟨_, hB, ?_, ?_⟩ <;>
      simp [relStep, addFamcRels, addFamRel, hfm, mapGet, initNode, ha, hab]
  · have hC := hnodes { id := c, famc := some f } (by
      simp [modelOneFamily])
    refine ⟨_, hC, ?_⟩
    by_cases hf : f = ""
    · simp [relStep, addFamcRels, hf, initNode]
    · simp [relStep, addFamcRels, hf, hfm, mapGet, initNode]

/-- Witness for C1 at concrete ids. -/
theorem build_one_family_witness :
    ∃ g, build (modelOneFamily "I1" "I2" "I3" "F1") = some g ∧
      (∃ na, mapGet g.individuals "I1" = some na ∧
        ("I2", "F1") ∈ na.spouses ∧ ("I3", "F1") ∈ na.children) ∧
      (∃ nb, mapGet g.individuals "I2" = some nb ∧
        ("I1", "F1") ∈ nb.spouses ∧ ("I3", "F1") ∈ nb.children) ∧
      (∃ nc, mapGet g.individuals "I3" = some nc ∧ nc.siblings = []) :=
  build_one_family "I1" "I2" "I3" "F1" (by decide) (by decide) (by decide)
    (by decide) (by decide)

theorem build_keyConsistent (d : GedcomData) (g : RelationshipGraph)
    (h : build d = some g) : KeyConsistent g :=
  fun k n hn => (build_mapOk d g h k n hn).1

theorem ancList_part (g : RelationshipGraph) (fuel : Nat)
    (hgo : ∀ id st, StInv st → StInv (ancGo g fuel id st) ∧
      (∀ v ∈ st.visited, v ∈ (ancGo g fuel id st).visited) ∧
      ∃ t, (ancGo g fuel id st).result = st.result ++ t) :
    ∀ ids st, StInv st → StInv (ancList g fuel ids st) ∧
      (∀ v ∈ st.visited, v ∈ (ancList g fuel ids st).visited) ∧
      ∃ t, (ancList g fuel ids st).result = st.result ++ t := by
  intro ids
  induction ids with
  | nil =>
    intro st h
    rw [ancList]
    exact ⟨h, fun v hv => hv, [], by simp⟩
  | cons pid rest ih =>
    intro st h
    rw [ancList]
    by_cases hpid : pid = ""
    · rw [if_pos hpid]
      exact ih st h
    · rw [if_neg hpid]
      rcases hgo pid st h with ⟨h1, h2, t1, ht1⟩
      rcases ih _ h1 with ⟨h1', h2', t2, ht2⟩
      exact ⟨h1', fun v hv => h2' v (h2 v hv), t1 ++ t2,
        by rw [ht2, ht1, List.append_assoc]⟩

theorem ancGo_inv (g : RelationshipGraph) (hg : KeyConsistent g) :
    ∀ (fuel : Nat) (id : String) (st : TravState), StInv st →
      StInv (ancGo g fuel id st) ∧
      (∀ v ∈ st.visited, v ∈ (ancGo g fuel id st).visited) ∧
      ∃ t, (ancGo g fuel id st).result = st.result ++ t := by
  intro fuel
  induction fuel with
  | zero =>
    intro id st h
    rw [ancGo]
    exact ⟨h, fun v hv => hv, [], by simp⟩
  | succ fuel ih =>
    intro id st h
    rw [ancGo]
    by_cases hv : st.visited.contains id
    · rw [if_pos hv]
      exact ⟨h, fun v hv => hv, [], by simp⟩
    · rw [if_neg hv]
      have hv' : id ∉ st.visited := by simpa using hv
      cases hm : mapGet g.individuals id with
      | none =>
        refine ⟨⟨h.1, fun p hp => List.mem_cons_of_mem _ (h.2 p hp)⟩,
          fun v hvv => List.mem_cons_of_mem _ hvv, [], by simp⟩
      | some node =>
        have hid : node.profile.id = id := hg id node hm
        have hnotin : id ∉ st.result.map (fun p => p.id) := by
          intro hmem
          rcases List.mem_map.mp hmem with ⟨p, hp, hpid⟩
          exact hv' (hpid ▸ h.2 p hp)
        have h2inv : StInv ⟨st.result ++ [node.profile], id :: st.visited⟩ := by
          constructor
          · rw [List.map_append, List.map_cons, List.map_nil, hid]
            rw [List.nodup_append]
            exact ⟨h.1, List.nodup_singleton id, by
              intro x hx hx2
              rw [List.mem_singleton] at hx2
              exact hnotin (hx2 ▸ hx)⟩
          · intro p hp
            rcases List.mem_append.mp hp with h1 | h1
            · exact List.mem_cons_of_mem _ (h.2 p h1)
            · rw [List.mem_singleton] at h1
              subst h1
              rw [hid]
              exact List.mem_cons_self _ _
        rcases ancList_part g fuel ih (node.parents.getD []) _ h2inv with
          ⟨hI, hV, t, ht⟩
        refine ⟨hI, ?_, [node.profile] ++ t, ?_⟩
        · intro v hvv
          exact hV v (List.mem_cons_of_mem _ hvv)
        · rw [ht]
          simp

/-- **C2.** On every built graph (including graphs whose parent pointers
form a cycle), for every start id and every generation bound,
`getAncestors` — a total function of the depth-bounded, visited-set
traversal — returns a list in which each profile id occurs at most
once. -/
theorem getAncestors_visits_once (d : GedcomData) (g : RelationshipGraph)
    (h : build d = some g) (s : String) (gens : Nat) :
    ((getAncestors s g gens).map (fun p => p.id)).Nodup := by
  have hg := build_keyConsistent d g h
  have hinv : StInv ⟨[], []⟩ := ⟨List.nodup_nil, by intro p hp; cases hp⟩
  exact ((ancGo_inv g hg (gens + 1) s ⟨[], []⟩ hinv).1).1

/-- Witness for C2 on the cyclic graph `modelCycle`, where `I1` is its
own parent: the traversal terminates and visits `I1` once. -/
theorem getAncestors_visits_once_witness :
    ((getAncestors "I1" builtCycle 5).map (fun p => p.id)).Nodup :=
  getAncestors_visits_once modelCycle builtCycle (by rfl) "I1" 5

theorem ancList_zero (g : RelationshipGraph) :
    ∀ (ids : List String) (st : TravState), ancList g 0 ids st = st := by
  intro ids
  induction ids with
  | nil => intro st; rw [ancList]
  | cons pid rest ih =>
    intro st
    rw [ancList]
    have hgo : ancGo g 0 pid st = st := by rw [ancGo]
    by_cases hpid : pid = ""
    · rw [if_pos hpid, ih]
    · rw [if_neg hpid, hgo, ih]

theorem ancGo_succ (g : RelationshipGraph) (fuel : Nat) (id : String)
    (st : TravState) :
    ancGo g (fuel + 1) id st =
      if st.visited.contains id then st
      else
        match mapGet g.individuals id with
        | none => ⟨st.result, id :: st.visited⟩
        | some node => ancList g fuel (node.parents.getD [])
            ⟨st.result ++ [node.profile], id :: st.visited⟩ := by
  rw [ancGo]

/-- Full description of one traversal step at fuel 1: the node is pushed
(when unvisited and resolvable) and no parent is explored. -/
theorem ancGo_one (g : RelationshipGraph) (id : String) (st : TravState) :
    ancGo g 1 id st =
      if st.visited.contains id then st
      else
        match mapGet g.individuals id with
        | none => ⟨st.result, id :: st.visited⟩
        | some node => ⟨st.result ++ [node.profile], id :: st.visited⟩ := by
  rw [ancGo_succ]
  by_cases hv : st.visited.contains id
  · rw [if_pos hv, if_pos hv]
  · rw [if_neg hv, if_neg hv]
    cases mapGet g.individuals id with
    | none => rfl
    | some node => exact ancList_zero g _ _

theorem ancGo_one_covered (g : RelationshipGraph) (id : String)
    (st : TravState) (h : VisitedCovered g st) :
    VisitedCovered g (ancGo g 1 id st) ∧
    id ∈ (ancGo g 1 id st).visited ∧
    (∀ v ∈ st.visited, v ∈ (ancGo g 1 id st).visited) ∧
    (∀ q ∈ st.result, q ∈ (ancGo g 1 id st).result) := by
  rw [ancGo_one]
  by_cases hv : st.visited.contains id
  · rw [if_pos hv]
    exact ⟨h, by simpa using hv, fun v hvv => hvv, fun q hq => hq⟩
  · rw [if_neg hv]
    cases hm : mapGet g.individuals id with
    | none =>
      refine ⟨?_, List.mem_cons_self _ _, fun v hvv => List.mem_cons_of_mem _ hvv,
        fun q hq => hq⟩
      intro id' n' hn' hin
      rcases List.mem_cons.mp hin with rfl | hin
      · rw [hm] at hn'; cases hn'
      · exact h id' n' hn' hin
    | some node =>
      refine ⟨?_, List.mem_cons_self _ _, fun v hvv => List.mem_cons_of_mem _ hvv,
        fun q hq => List.mem_append_left _ hq⟩
      intro id' n' hn' hin
      rcases List.mem_cons.mp hin with rfl | hin
      · rw [hm] at hn'
        injection hn' with he
        subst he
        exact List.mem_append_right _ (List.mem_singleton.mpr rfl)
      · exact List.mem_append_left _ (h id' n' hn' hin)

theorem ancList_one_covered (g : RelationshipGraph) :
    ∀ (ps : List String) (st : TravState), VisitedCovered g st →
      VisitedCovered g (ancList g 1 ps st) ∧
      (∀ pid ∈ ps, pid ≠ "" → pid ∈ (ancList g 1 ps st).visited) ∧
      (∀ q ∈ st.result, q ∈ (ancList g 1 ps st).result) ∧
      (∀ v ∈ st.visited, v ∈ (ancList g 1 ps st).visited) := by
  intro ps
  induction ps with
  | nil =>
    intro st h
    rw [ancList]
    exact ⟨h, fun pid hpid _ => absurd hpid (List.not_mem_nil pid),
      fun q hq => hq, fun v hv => hv⟩
  | cons pid rest ih =>
    intro st h
    rw [ancList]
    by_cases hpid : pid = ""
    · rw [if_pos hpid]
      rcases ih st h with ⟨h1, h2, h3, h4⟩
      refine ⟨h1, ?_, h3, h4⟩
      intro pid' hpid' hne
      rcases List.mem_cons.mp hpid' with rfl | hpid'
      · exact absurd hpid hne
      · exact h2 pid' hpid' hne
    · rw [if_neg hpid]
      rcases ancGo_one_covered g pid st h with ⟨h1, h2, h3, h4⟩
      rcases ih _ h1 with ⟨h1', h2', h3', h4'⟩
      refine ⟨h1', ?_, fun q hq => h3' q (h4 q hq),
        fun v hv => h4' v (h3 v hv)⟩
      intro pid' hpid' hne
      rcases List.mem_cons.mp hpid' with rfl | hpid'
      · exact h4' pid' h2
      · exact h2' pid' hpid' hne

theorem ancGo_one_mem (g : RelationshipGraph) (id : String) (st : TravState) :
    ∀ q ∈ (ancGo g 1 id st).result, q ∈ st.result ∨
      ∃ n, mapGet g.individuals id = some n ∧ q = n.profile := by
  rw [ancGo_one]
  by_cases hv : st.visited.contains id
  · rw [if_pos hv]
    exact fun q hq => Or.inl hq
  · rw [if_neg hv]
    cases hm : mapGet g.individuals id with
    | none => exact fun q hq => Or.inl hq
    | some node =>
      intro q hq
      rcases List.mem_append.mp hq with h1 | h1
      · exact Or.inl h1
      · exact Or.inr ⟨node, rfl, List.mem_singleton.mp h1⟩

theorem ancList_one_mem (g : RelationshipGraph) :
    ∀ (ps : List String) (st : TravState),
      ∀ q ∈ (ancList g 1 ps st).result, q ∈ st.result ∨
        ∃ pid ∈ ps, ∃ n, mapGet g.individuals pid = some n ∧
          q = n.profile := by
  intro ps
  induction ps with
  | nil =>
    intro st q hq
    rw [ancList] at hq
    exact Or.inl hq
  | cons pid rest ih =>
    intro st q hq
    rw [ancList] at hq
    by_cases hpid : pid = ""
    · rw [if_pos hpid] at hq
      rcases ih st q hq with h1 | ⟨pid', h1, n, h2, h3⟩
      · exact Or.inl h1
      · exact Or.inr ⟨pid', List.mem_cons_of_mem _ h1, n, h2, h3⟩
    · rw [if_neg hpid] at hq
      rcases ih _ q hq with h1 | ⟨pid', h1, n, h2, h3⟩
      · rcases ancGo_one_mem g pid st q h1 with h2 | ⟨n, h2, h3⟩
        · exact Or.inl h2
        · exact Or.inr ⟨pid, List.mem_cons_self _ _, n, h2, h3⟩
      · exact Or.inr ⟨pid', List.mem_cons_of_mem _ h1, n, h2, h3⟩

theorem ancGo_one_length (g : RelationshipGraph) (id : String)
    (st : TravState) :
    (ancGo g 1 id st).result.length ≤ st.result.length + 1 := by
  rw [ancGo_one]
  by_cases hv : st.visited.contains id
  · rw [if_pos hv]
    exact Nat.le_succ _
  · rw [if_neg hv]
    cases mapGet g.individuals id with
    | none => exact Nat.le_succ _
    | some node => simp

theorem ancList_one_length (g : RelationshipGraph) :
    ∀ (ps : List String) (st : TravState),
      (ancList g 1 ps st).result.length ≤ st.result.length + ps.length := by
  intro ps
  induction ps with
  | nil =>
    intro st
    rw [ancList]
    simp
  | cons pid rest ih =>
    intro st
    rw [ancList]
    by_cases hpid : pid = ""
    · rw [if_pos hpid]
      calc (ancList g 1 rest st).result.length
          ≤ st.result.length + rest.length := ih st
        _ ≤ st.result.length + (pid :: rest).length := by
            simp [Nat.add_le_add_iff_left]
    · rw [if_neg hpid]
      calc (ancList g 1 rest (ancGo g 1 pid st)).result.length
          ≤ (ancGo g 1 pid st).result.length + rest.length := ih _
        _ ≤ (st.result.length + 1) + rest.length :=
            Nat.add_le_add_right (ancGo_one_length g pid st) _
        _ = st.result.length + (pid :: rest).length := by
            simp [List.length_cons]
            omega

/-- **C4.** For every individual of a built graph whose famc resolved
(its node carries a parent pair `ps`), `getAncestors(id, graph, 1)`
starts with the individual's own profile, contains only profiles whose
id is the start id or a member of the parent pair (no grandparents),
contains the profile of every parent id that resolves in the graph, and
has at most three elements (start plus up to two parents). -/
theorem getAncestors_one_generation (d : GedcomData) (g : RelationshipGraph)
    (h : build d = some g) (s : String) (node : ProfileNode)
    (hn : mapGet g.individuals s = some node) (ps : List String)
    (hps : node.parents = some ps) :
    (getAncestors s g 1).head? = some node.profile ∧
    (∀ q ∈ getAncestors s g 1, q.id = s ∨ q.id ∈ ps) ∧
    (∀ pid ∈ ps, ∀ pn, mapGet g.individuals pid = some pn →
      pn.profile ∈ getAncestors s g 1) ∧
    (getAncestors s g 1).length ≤ 3 := by
  have hkc := build_keyConsistent d g h
  have hid : node.profile.id = s := hkc s node hn
  have hparentsOk := (build_mapOk d g h s node hn).2.1 ps hps
  have hkey : getAncestors s g 1 =
      (ancList g 1 ps ⟨[node.profile], [s]⟩).result := by
    unfold getAncestors
    rw [ancGo_succ]
    rw [if_neg (by simp : ¬ ((⟨[], []⟩ : TravState).visited.contains s = true))]
    rw [hn]
    dsimp only
    rw [hps]
    rfl
  have hst : StInv ⟨[node.profile], [s]⟩ := by
    constructor
    · simp
    · intro p hp
      rw [List.mem_singleton] at hp
      subst hp
      rw [hid]
      exact List.mem_singleton.mpr rfl
  have hcov : VisitedCovered g ⟨[node.profile], [s]⟩ := by
    intro id' n' hn' hin
    rcases List.mem_singleton.mp hin with rfl
    rw [hn] at hn'
    injection hn' with he
    subst he
    exact List.mem_singleton.mpr rfl
  refine ⟨?_, ?_, ?_, ?_⟩
  · rcases (ancList_part g 1 (ancGo_inv g hkc 1) ps _ hst) with ⟨_, _, t, ht⟩
    rw [hkey, ht]
    rfl
  · intro q hq
    rw [hkey] at hq
    rcases ancList_one_mem g ps _ q hq with h1 | ⟨pid, h1, n', h2, h3⟩
    · rcases List.mem_singleton.mp h1 with rfl
      exact Or.inl hid
    · subst h3
      rw [hkc pid n' h2]
      exact Or.inr h1
  · intro pid hpid pn hpn
    rcases ancList_one_covered g ps _ hcov with ⟨hc, hvis, _, _⟩
    have hne : pid ≠ "" := hparentsOk.2 pid hpid
    rw [hkey]
    exact hc pid pn hpn (hvis pid hpid hne)
  · rw [hkey]
    calc (ancList g 1 ps ⟨[node.profile], [s]⟩).result.length
        ≤ 1 + ps.length := ancList_one_length g ps _
      _ ≤ 1 + 2 := Nat.add_le_add_left hparentsOk.1 _
      _ = 3 := rfl

/-- Witness for C4: in the one-family graph, the one-generation ancestor
query from the child starts with the child and returns at most three
profiles. -/
theorem getAncestors_one_generation_witness :
    (getAncestors "I3" builtOneFam 1).head? =
      some { id := "I3", famc := some "F1" } ∧
    (getAncestors "I3" builtOneFam 1).length ≤ 3 := by
  have h := getAncestors_one_generation (modelOneFamily "I1" "I2" "I3" "F1")
    builtOneFam (by rfl) "I3"
    { profile := { id := "I3", famc := some "F1" },
      parents := some ["I1", "I2"] }
    (by decide) ["I1", "I2"] rfl
  exact ⟨h.1, h.2.2.2⟩

/-! ### Lemmas about the field parsers -/

theorem breakSlash_no_slash (l : List Char) (h : ∀ c ∈ l, c ≠ '/') :
    breakSlash l = (l, none) := by
  induction l with
  | nil => rfl
  | cons c cs ih =>
    have hc : c ≠ '/' := h c (List.mem_cons_self _ _)
    have ih' := ih (fun x hx => h x (List.mem_cons_of_mem _ hx))
    simp [breakSlash, hc, ih']

theorem breakSlash_split (pre rest : List Char) (h : ∀ c ∈ pre, c ≠ '/') :
    breakSlash (pre ++ '/' :: rest) = (pre, some rest) := by
  induction pre with
  | nil => simp [breakSlash]
  | cons c cs ih =>
    have hc : c ≠ '/' := h c (List.mem_cons_self _ _)
    have ih' := ih (fun x hx => h x (List.mem_cons_of_mem _ hx))
    simp [breakSlash, hc, ih']

theorem nameMatch_split (pre mid rest : List Char)
    (hpre : ∀ c ∈ pre, c ≠ '/') (hmid : ∀ c ∈ mid, c ≠ '/')
    (hne : mid ≠ []) :
    nameMatch (pre ++ '/' :: (mid ++ '/' :: rest)) = some (pre, mid) := by
  unfold nameMatch
  rw [breakSlash_split pre _ hpre]
  dsimp only
  rw [breakSlash_split mid rest hmid]
  simp [hne]

theorem nameMatch_no_slash (l : List Char) (h : ∀ c ∈ l, c ≠ '/') :
    nameMatch l = none := by
  unfold nameMatch
  rw [breakSlash_no_slash l h]

theorem breakSlash_some_inv (l : List Char) :
    ∀ pre rest, breakSlash l = (pre, some rest) →
      l = pre ++ '/' :: rest ∧ ∀ c ∈ pre, c ≠ '/' := by
  induction l with
  | nil =>
    intro pre rest h
    simp [breakSlash] at h
  | cons c cs ih =>
    intro pre rest h
    by_cases hc : c = '/'
    · simp only [breakSlash, hc, if_true, Prod.mk.injEq] at h
      rcases h with ⟨hpre, hrest⟩
      subst hc
      rw [← hpre, ← (Option.some_inj.mp hrest)]
      exact ⟨rfl, by intro x hx; cases hx⟩
    · simp only [breakSlash, hc, if_false, Prod.mk.injEq] at h
      rcases h with ⟨hpre, hrest⟩
      have hcs : breakSlash cs = ((breakSlash cs).1, some rest) := by
        rw [← hrest]
      rcases ih (breakSlash cs).1 rest hcs with ⟨heq, hall⟩
      rw [← hpre]
      constructor
      · show c :: cs = c :: ((breakSlash cs).1 ++ '/' :: rest)
        exact congrArg (List.cons c) heq
      · intro x hx
        rcases List.mem_cons.mp hx with rfl | hx
        · exact hc
        · exact hall x hx

/-- Completeness of the matcher: a successful match exhibits the
decomposition `pre ++ "/" ++ mid ++ "/" ++ rest` with slash-free `pre`,
non-empty slash-free `mid` — i.e. the string does contain a
slash-delimited segment. -/
theorem nameMatch_some_inv (l : List Char) (pre mid : List Char)
    (h : nameMatch l = some (pre, mid)) :
    ∃ rest, l = pre ++ '/' :: (mid ++ '/' :: rest) ∧
      (∀ c ∈ pre, c ≠ '/') ∧ mid ≠ [] ∧ ∀ c ∈ mid, c ≠ '/' := by
  unfold nameMatch at h
  cases hb1 : breakSlash l with
  | mk pre1 o1 =>
    rw [hb1] at h
    cases o1 with
    | none => cases h
    | some rest1 =>
      dsimp only at h
      cases hb2 : breakSlash rest1 with
      | mk mid1 o2 =>
        rw [hb2] at h
        cases o2 with
        | none => cases h
        | some rest2 =>
          dsimp only at h
          by_cases hne : mid1 = []
          · rw [if_pos hne] at h
            cases h
          · rw [if_neg hne] at h
            injection h with h'
            rw [Prod.mk.injEq] at h'
            rcases breakSlash_some_inv l pre1 rest1 hb1 with ⟨hl, hpre⟩
            rcases breakSlash_some_inv rest1 mid1 rest2 hb2 with ⟨hr, hmid⟩
            refine ⟨rest2, ?_, ?_, ?_, ?_⟩
            · rw [← h'.1, ← h'.2, hl, hr]
            · rw [← h'.1]
              exact hpre
            · rw [← h'.2]
              exact hne
            · rw [← h'.2]
              exact hmid

/-- **C6.** Name splitting: a value of the shape
`pre ++ "/" ++ mid ++ "/" ++ rest` (no slash in `pre`; `mid` a non-empty
slash-free segment) yields the leading text as given name and the
slash-delimited segment as surname (each trimmed, the empty string
becoming unset); a value containing **no slash-delimited segment** —
admitting no such decomposition, whether or not it contains slashes —
yields the whole value as given name with the surname unset.  In
particular `"John /Doe/"` gives `("John", "Doe")`, and `"Jane"`,
`"N/A"`, `"a//b"`, `"John //"` (no slash-delimited segment) give the
whole value with the surname unset. -/
theorem parseName_splitting :
    (∀ (s : String) (pre mid rest : List Char),
      s.data = pre ++ '/' :: (mid ++ '/' :: rest) →
      (∀ c ∈ pre, c ≠ '/') → mid ≠ [] → (∀ c ∈ mid, c ≠ '/') →
      parseName s = (strOrNone (jsTrim ⟨pre⟩), strOrNone (jsTrim ⟨mid⟩))) ∧
    (∀ s : String,
      (¬∃ pre mid rest : List Char,
        s.data = pre ++ '/' :: (mid ++ '/' :: rest) ∧
        (∀ c ∈ pre, c ≠ '/') ∧ mid ≠ [] ∧ (∀ c ∈ mid, c ≠ '/')) →
      parseName s = (some s, none)) ∧
    parseName "John /Doe/" = (some "John", some "Doe") ∧
    parseName "Jane" = (some "Jane", none) ∧
    parseName "N/A" = (some "N/A", none) ∧
    parseName "a//b" = (some "a//b", none) ∧
    parseName "John //" = (some "John //", none) := by
  refine ⟨?_, ?_, by decide, by decide, by decide, by decide, by decide⟩
  · intro s pre mid rest hdata hpre hne hmid
    unfold parseName
    rw [hdata, nameMatch_split pre mid rest hpre hmid hne]
  · intro s h
    unfold parseName
    cases hm : nameMatch s.data with
    | none => rfl
    | some pm =>
      exfalso
      rcases pm with ⟨pre, mid⟩
      rcases nameMatch_some_inv s.data pre mid hm with
        ⟨rest, hdec, hpre, hne, hmid⟩
      exact h ⟨pre, mid, rest, hdec, hpre, hne, hmid⟩

/-- Witness for C6 discharging the general clauses at concrete inputs:
the matching case at `"John /Doe/"`, and the no-segment case at
`"N/A"`, whose no-decomposition hypothesis is discharged through the
matcher (a decomposition would force a match, but the matcher returns
`none` on `"N/A"` by computation). -/
theorem parseName_splitting_witness :
    parseName "John /Doe/" =
      (strOrNone (jsTrim ⟨['J', 'o', 'h', 'n', ' ']⟩),
       strOrNone (jsTrim ⟨['D', 'o', 'e']⟩)) ∧
    parseName "N/A" = (some "N/A", none) := by
  constructor
  · exact parseName_splitting.1 "John /Doe/" ['J', 'o', 'h', 'n', ' ']
      ['D', 'o', 'e'] [] (by decide) (by decide) (by decide) (by decide)
  · refine parseName_splitting.2.1 "N/A" ?_
    rintro ⟨pre, mid, rest, hdec, hpre, hne, hmid⟩
    have hmatch := nameMatch_split pre mid rest hpre hmid hne
    rw [← hdec] at hmatch
    have h0 : nameMatch ("N/A" : String).data = none := by decide
    rw [h0] at hmatch
    cases hmatch

/-- **C7 counterexample.** `"MALE"` is non-empty and its upper-casing is
none of `M`/`F`/`X`/`OTHER`, so under the claim it would have to
normalize to unspecified (`U`); the code maps it to male (`M`). -/
theorem normalizeSex_male_counterexample :
    ("MALE" : String) ≠ "" ∧
    jsToUpper "MALE" ∉ (["M", "F", "X", "OTHER"] : List String) ∧
    normalizeSex (some "MALE") = some Sex.M ∧
    normalizeSex (some "MALE") ≠ some Sex.U := by decide

/-- **C7 (amended).** Sex normalization, case-insensitively: `M`/`MALE`
to male, `F`/`FEMALE` to female, `X`/`OTHER` to other, any other
non-empty value to unspecified, absent or empty to unset. -/
theorem normalizeSex_characterization :
    normalizeSex none = none ∧
    normalizeSex (some "") = none ∧
    (∀ s : String, s ≠ "" →
      normalizeSex (some s) =
        (if jsToUpper s = "M" ∨ jsToUpper s = "MALE" then some Sex.M
         else if jsToUpper s = "F" ∨ jsToUpper s = "FEMALE" then some Sex.F
         else if jsToUpper s = "X" ∨ jsToUpper s = "OTHER" then some Sex.X
         else some Sex.U)) ∧
    normalizeSex (some "m") = some Sex.M ∧
    normalizeSex (some "Male") = some Sex.M ∧
    normalizeSex (some "f") = some Sex.F ∧
    normalizeSex (some "Female") = some Sex.F ∧
    normalizeSex (some "x") = some Sex.X ∧
    normalizeSex (some "other") = some Sex.X ∧
    normalizeSex (some "unknown") = some Sex.U ∧
    normalizeSex (some "NB") = some Sex.U := by
  refine ⟨rfl, rfl, ?_, by decide, by decide, by decide, by decide,
    by decide, by decide, by decide, by decide⟩
  intro s hs
  unfold normalizeSex
  dsimp only
  rw [if_neg hs]

/-- Witness for C7's amended theorem at a concrete non-empty input. -/
theorem normalizeSex_characterization_witness :
    normalizeSex (some "fEmAlE") =
      (if jsToUpper "fEmAlE" = "M" ∨ jsToUpper "fEmAlE" = "MALE" then
        some Sex.M
       else if jsToUpper "fEmAlE" = "F" ∨ jsToUpper "fEmAlE" = "FEMALE" then
        some Sex.F
       else if jsToUpper "fEmAlE" = "X" ∨ jsToUpper "fEmAlE" = "OTHER" then
        some Sex.X
       else some Sex.U) :=
  normalizeSex_characterization.2.2.1 "fEmAlE" (by decide)

/-- **C5 counterexample.** Two divergences from the claim.  First,
`"1 JAN 1980 X"` has four tokens — under the claim ("exactly three
tokens …; any other token pattern yields no structured fields") it must
have no structured day/month/year, but the code's `parts.length >= 3`
test fills them from the first three tokens.  Second,
`"15\tJUN\t1980"` is three tokens under whitespace splitting (the
claim's reading) but a single token under the code's split on the space
character, so it gets no structured fields. -/
theorem parseDate_claim_counterexample :
    ((splitSpace (jsTrim "1 JAN 1980 X")).length = 4 ∧
      parseDate "1 JAN 1980 X" =
        some { day := some (some 1), month := some 1,
               year := some (some 1980), text := "1 JAN 1980 X" }) ∧
    parseDate "15\tJUN\t1980" =
      some { day := none, month := none, year := none,
             text := "15\tJUN\t1980" } := by decide

/-- **C5 (amended).** Event date parsing: the empty string yields no
date object; otherwise the string is trimmed and split on the space
character (not general whitespace); three **or more** tokens yield day
(first token via `parseInt`), month (case-insensitive 3-letter-
abbreviation lookup on the second token, `0` when unrecognized) and year
(third token via `parseInt`); a single 4-digit token yields only a
year; any other token pattern yields no structured fields; the original
text is stored verbatim in every produced date object.  In particular
`"15 JUN 1980"` gives day 15, month 6, year 1980; `"1980"` gives only
year 1980; `"circa 1980"` gives no structured fields. -/
theorem parseDate_characterization :
    parseDate "" = none ∧
    parseDate "15 JUN 1980" =
      some { day := some (some 15), month := some 6,
             year := some (some 1980), text := "15 JUN 1980" } ∧
    parseDate "1980" =
      some { day := none, month := none, year := some (some 1980),
             text := "1980" } ∧
    parseDate "circa 1980" =
      some { day := none, month := none, year := none,
             text := "circa 1980" } ∧
    (∀ s : String, s ≠ "" → 3 ≤ (splitSpace (jsTrim s)).length →
      parseDate s = some
        { day := some (jsParseInt ((splitSpace (jsTrim s)).getD 0 "")),
          month := some (monthToNumber ((splitSpace (jsTrim s)).getD 1 "")),
          year := some (jsParseInt ((splitSpace (jsTrim s)).getD 2 "")),
          text := s }) ∧
    (∀ s : String, s ≠ "" →
      ((splitSpace (jsTrim s)).length = 1 ∧
        isFourDigits ((splitSpace (jsTrim s)).getD 0 "") = true) →
      (splitSpace (jsTrim s)).length < 3 →
      parseDate s = some
        { day := none, month := none,
          year := some (jsParseInt ((splitSpace (jsTrim s)).getD 0 "")),
          text := s }) ∧
    (∀ s : String, s ≠ "" → (splitSpace (jsTrim s)).length < 3 →
      ¬((splitSpace (jsTrim s)).length = 1 ∧
        isFourDigits ((splitSpace (jsTrim s)).getD 0 "") = true) →
      parseDate s = some
        { day := none, month := none, year := none, text := s }) ∧
    (monthToNumber "JAN" = 1 ∧ monthToNumber "FEB" = 2 ∧
     monthToNumber "MAR" = 3 ∧ monthToNumber "APR" = 4 ∧
     monthToNumber "MAY" = 5 ∧ monthToNumber "JUN" = 6 ∧
     monthToNumber "JUL" = 7 ∧ monthToNumber "AUG" = 8 ∧
     monthToNumber "SEP" = 9 ∧ monthToNumber "OCT" = 10 ∧
     monthToNumber "NOV" = 11 ∧ monthToNumber "DEC" = 12 ∧
     monthToNumber "jun" = 6 ∧ monthToNumber "Dec" = 12 ∧
     monthToNumber "JUNE" = 0 ∧ monthToNumber "FOO" = 0) := by
  refine ⟨rfl, by decide, by decide, by decide, ?_, ?_, ?_, by decide⟩
  · intro s hs hlen
    unfold parseDate
    rw [if_neg hs]
    dsimp only
    rw [if_pos hlen]
  · intro s hs h1 hlt
    unfold parseDate
    rw [if_neg hs]
    dsimp only
    rw [if_neg (by omega : ¬ 3 ≤ (splitSpace (jsTrim s)).length),
      if_pos h1]
  · intro s hs hlt h1
    unfold parseDate
    rw [if_neg hs]
    dsimp only
    rw [if_neg (by omega : ¬ 3 ≤ (splitSpace (jsTrim s)).length),
      if_neg h1]

/-- Witness for C5's amended theorem discharging the quantified clauses
at concrete inputs. -/
theorem parseDate_characterization_witness :
    parseDate "15 JUN 1980" = some
      { day := some (jsParseInt ((splitSpace (jsTrim "15 JUN 1980")).getD 0 "")),
        month := some (monthToNumber ((splitSpace (jsTrim "15 JUN 1980")).getD 1 "")),
        year := some (jsParseInt ((splitSpace (jsTrim "15 JUN 1980")).getD 2 "")),
        text := "15 JUN 1980" } ∧
    parseDate "1980" = some
      { day := none, month := none,
        year := some (jsParseInt ((splitSpace (jsTrim "1980")).getD 0 "")),
        text := "1980" } ∧
    parseDate "circa 1980" = some
      { day := none, month := none, year := none, text := "circa 1980" } := by
  refine ⟨?_, ?_, ?_⟩
  · exact parseDate_characterization.2.2.2.2.1 "15 JUN 1980" (by decide)
      (by decide)
  · exact parseDate_characterization.2.2.2.2.2.1 "1980" (by decide)
      (by decide) (by decide)
  · exact parseDate_characterization.2.2.2.2.2.2.1 "circa 1980" (by decide)
      (by decide) (by decide)

/-! ### Lemmas about the record-tree parser -/

theorem popTo_nil (lvl : Nat) (roots : List RNode) :
    popTo lvl [] roots = ([], roots) := by
  rw [popTo.eq_def]

theorem popTo_lt (lvl : Nat) (top : PartialNode) (rest : List PartialNode)
    (roots : List RNode) (h : top.level < lvl) :
    popTo lvl (top :: rest) roots = (top :: rest, roots) := by
  rw [popTo.eq_def]
  dsimp only
  rw [if_neg (Nat.not_le_of_lt h)]

theorem treeStep_eval (stack : List PartialNode) (roots : List RNode)
    (lvl : Nat) (tag : String) (pl : Option String) :
    treeStep (stack, roots) (lvl, tag, pl) =
      ({ level := lvl, tag := tag, payload := pl, childrenRev := [] }
        :: (popTo lvl stack roots).1, (popTo lvl stack roots).2) := rfl

theorem finishStack_one (a : PartialNode) (roots : List RNode) :
    finishStack [a] roots = roots ++ [closePartial a] := by
  rw [finishStack]

theorem finishStack_two (a b : PartialNode) (rest : List PartialNode)
    (roots : List RNode) :
    finishStack (a :: b :: rest) roots =
      finishStack
        ({ b with childrenRev := closePartial a :: b.childrenRev } :: rest)
        roots := by
  rw [finishStack]

theorem foldl_chainLevels (n : Nat) :
    (chainLevels n).foldl treeStep ([], []) = (stkC n [], []) := by
  induction n with
  | zero =>
    show treeStep ([], []) (0, "T", none) = (stkC 0 [], [])
    rw [treeStep_eval, popTo_nil]
    rfl
  | succ n ih =>
    have hsplit : chainLevels (n + 1) =
        chainLevels n ++ [(n + 1, "T", none)] := by
      unfold chainLevels
      rw [List.range_succ, List.map_append]
      rfl
    have hpop : popTo (n + 1) (stkC n []) [] = (stkC n [], []) := by
      cases n with
      | zero => exact popTo_lt _ _ _ _ (Nat.lt_succ_self 0)
      | succ k => exact popTo_lt _ _ _ _ (Nat.lt_succ_self (k + 1))
    rw [hsplit, List.foldl_append, ih, List.foldl_cons, List.foldl_nil,
      treeStep_eval, hpop]
    rfl

theorem chainOn_node (c : RNode) :
    ∀ j, chainOn (RNode.node "T" none [c]) j = chainOn c (j + 1) := by
  intro j
  induction j with
  | zero => rfl
  | succ j ih =>
    show RNode.node "T" none [chainOn (RNode.node "T" none [c]) j] =
      RNode.node "T" none [chainOn c (j + 1)]
    rw [ih]

theorem finishStack_stkC :
    ∀ (k : Nat) (cs : List RNode) (roots : List RNode),
      finishStack (stkC k cs) roots =
        roots ++ [chainOn (RNode.node "T" none cs.reverse) k] := by
  intro k
  induction k with
  | zero =>
    intro cs roots
    rw [stkC, finishStack_one]
    rfl
  | succ k ih =>
    intro cs roots
    have hstep : finishStack (stkC (k + 1) cs) roots =
        finishStack (stkC k [closePartial ⟨k + 1, "T", none, cs⟩]) roots := by
      cases k with
      | zero =>
        show finishStack
          (⟨0 + 1, "T", none, cs⟩ :: ⟨0, "T", none, []⟩ :: []) roots = _
        rw [finishStack_two]
        rfl
      | succ j =>
        show finishStack
          (⟨j + 1 + 1, "T", none, cs⟩ :: ⟨j + 1, "T", none, []⟩ :: stkC j [])
          roots = _
        rw [finishStack_two]
        rfl
    rw [hstep, ih]
    have hcp : closePartial ⟨k + 1, "T", none, cs⟩ =
        RNode.node "T" none cs.reverse := rfl
    rw [hcp]
    have hrev : ([RNode.node "T" none cs.reverse] : List RNode).reverse =
        [RNode.node "T" none cs.reverse] := rfl
    rw [hrev, chainOn_node]

theorem depth_node_single (t : String) (p : Option String) (c : RNode) :
    (RNode.node t p [c]).depth = 1 + c.depth := by
  rw [RNode.depth, RNode.depth]
  exact Nat.max_eq_left (Nat.le_add_right 1 c.depth)

/-- **C8 (modelled from the spec).** The record-tree parsing stage is an
explicit-stack automaton — a single structural fold over the input
lines, with the nesting state held in an explicit stack value rather
than in recursive descent — so it is total on inputs of arbitrary
nesting depth: for every `n`, the adversarially deep input whose lines
sit at levels `0, 1, …, n` is assembled (in finitely many fold steps,
one per line) into the single-branch tree of depth `n + 1`. -/
theorem recordTreeParser_arbitrary_depth (n : Nat) :
    assembleTree (chainLevels n) = [chainTree n] ∧
    (chainTree n).depth = n + 1 := by
  constructor
  · unfold assembleTree
    rw [foldl_chainLevels n]
    dsimp only
    rw [finishStack_stkC n [] []]
    rfl
  · unfold chainTree
    induction n with
    | zero =>
      show (RNode.node "T" none []).depth = 0 + 1
      rw [RNode.depth]
    | succ n ih =>
      show (RNode.node "T" none
        [chainOn (RNode.node "T" none []) n]).depth = n + 1 + 1
      rw [depth_node_single, ih, Nat.add_comm]

/-- Witness for C8 at a concrete depth. -/
theorem recordTreeParser_arbitrary_depth_witness :
    assembleTree (chainLevels 5) = [chainTree 5] ∧
    (chainTree 5).depth = 6 :=
  recordTreeParser_arbitrary_depth 5

end GedcomViewer
